import Mathlib

/-!
Verification of the vscode-git-log-explorer core algorithms.

This file gives a shallow embedding of the two decision-logic components of
the repository and proves the specified properties about them:

* `getBranchDifference` — the divergence computation of
  `GitService.getBranchDifference` (gitService, lines 534-590): hash-keyed
  set difference of two commit lists plus detection of same-hash,
  different-message pairs.  The JavaScript `Map` built from `[hash, commit]`
  pairs is modelled by `mapGet` (last binding for a key wins, as in JS).
* `resolveRef` — the local-vs-remote ref selection tree inside
  `GitService.getCommits` (gitService, lines 237-310).  Each fallible git
  hook call (`rev-parse` on the remote ref, `rev-parse` on the local ref,
  and the merge-base / rev-list comparison) is modelled by an `Option`
  field of `RefEnv`; `none` stands for the call throwing, and the
  `parseInt(..) || 0` coercion of unparsable counts is modelled by
  `Option.getD 0`.  The surrounding try/catch structure of the source makes
  the resolver total: every branch ends in a concrete decision, which is
  why `resolveRef` is a total Lean function.
* `compareBranchesFilter` — the author pre-filter and the "hide identical"
  message pre-filter of `GitLogWebviewProvider.compareBranches`
  (webviewProvider, lines 272-305), applied in that order.

Definitions whose name starts with `spec_` restate the specification's own
words (for refinement comparisons); all other definitions are translated
from the source.
-/

/-- Commit record, from the `GitCommit` interface of gitService. -/
structure GitCommit where
  hash : String
  date : String
  message : String
  author : String
deriving DecidableEq, Repr

/-- One entry of the `different` output of `getBranchDifference`
(the object literal pushed at gitService lines 564-570). -/
structure DifferentRecord where
  hash : String
  fromMessage : String
  toMessage : String
  author : String
  date : String
deriving DecidableEq, Repr

/-- Result shape of `getBranchDifference` (gitService lines 534-538). -/
structure BranchDifference where
  onlyInFrom : List GitCommit
  onlyInTo : List GitCommit
  different : List DifferentRecord
deriving DecidableEq, Repr

/-- Membership test of the JS `Map` built from `commits.map(c => [c.hash, c])`:
`map.has(h)` holds iff some commit of the list has hash `h`. -/
def hasHash (commits : List GitCommit) (h : String) : Bool :=
  commits.any (fun c => c.hash == h)

/-- Lookup in the JS `Map` built from `commits.map(c => [c.hash, c])`.
When several commits share a hash the later pair overwrites the earlier
one, so the map holds the last such commit. -/
def mapGet (commits : List GitCommit) (h : String) : Option GitCommit :=
  (commits.filter (fun c => c.hash == h)).getLast?

/-- Divergence computation of `GitService.getBranchDifference`
(gitService lines 550-584), starting from the two already-fetched commit
lists: `onlyInFrom` keeps the from-commits whose hash the to-side map lacks,
`onlyInTo` symmetrically, and `different` collects, for each from-commit
whose hash the to-side map has, a record when the messages differ. -/
def getBranchDifference (fromCommits toCommits : List GitCommit) : BranchDifference :=
  let onlyInFrom := fromCommits.filter (fun commit => !hasHash toCommits commit.hash)
  let onlyInTo := toCommits.filter (fun commit => !hasHash fromCommits commit.hash)
  let different := fromCommits.filterMap (fun fromCommit =>
    match mapGet toCommits fromCommit.hash with
    | some toCommit =>
      if fromCommit.message != toCommit.message then
        some { hash := fromCommit.hash
               fromMessage := fromCommit.message
               toMessage := toCommit.message
               author := fromCommit.author
               date := fromCommit.date }
      else none
    | none => none)
  { onlyInFrom := onlyInFrom, onlyInTo := onlyInTo, different := different }

/-- Specification-side predicate: the hash `h` does not occur in `commits`. -/
def hashAbsent (commits : List GitCommit) (h : String) : Prop :=
  ∀ c ∈ commits, c.hash ≠ h

instance (commits : List GitCommit) (h : String) : Decidable (hashAbsent commits h) :=
  inferInstanceAs (Decidable (∀ c ∈ commits, c.hash ≠ h))

/-- Specification-side rendering of the claim about `onlyInFrom`: the sublist
of `fromCommits` whose hash does not occur in `toCommits`. -/
def spec_onlyInFrom (fromCommits toCommits : List GitCommit) : List GitCommit :=
  fromCommits.filter (fun c => decide (hashAbsent toCommits c.hash))

/-- Specification-side rendering of the claim about `onlyInTo`: the sublist
of `toCommits` whose hash does not occur in `fromCommits`. -/
def spec_onlyInTo (fromCommits toCommits : List GitCommit) : List GitCommit :=
  toCommits.filter (fun c => decide (hashAbsent fromCommits c.hash))

/-- Specification-side rendering of the `changedMessage` clause: for each
commit of `fromCommits` whose hash is present in `toCommits`, compare the
messages byte-for-byte and, when unequal, emit one record with the shared
hash, both messages verbatim, and the from-side author and date.  The
to-side commit is located by `find?`, the unambiguous lookup when hashes
are unique. -/
def spec_changedMessage (fromCommits toCommits : List GitCommit) : List DifferentRecord :=
  fromCommits.filterMap (fun fc =>
    match toCommits.find? (fun tc => tc.hash == fc.hash) with
    | some tc =>
      if fc.message ≠ tc.message then
        some { hash := fc.hash
               fromMessage := fc.message
               toMessage := tc.message
               author := fc.author
               date := fc.date }
      else none
    | none => none)

/-- Specification-side predicate: the hash `h` occurs in both lists (the
"common set" of the divergence report). -/
def hashInCommon (fromCommits toCommits : List GitCommit) (h : String) : Prop :=
  (∃ c ∈ fromCommits, c.hash = h) ∧ (∃ c ∈ toCommits, c.hash = h)

/-- Output of the ref-resolution step: the exact ref string later passed to
`git log`, and whether the remote variant was chosen (the `refToQuery` and
`useRemote` locals of `GitService.getCommits`, lines 238-239). -/
structure ResolvedRef where
  queryRef : String
  usedRemote : Bool
deriving DecidableEq, Repr

/-- Outcomes of the git hook calls that `GitService.getCommits` makes while
deciding between the local and the remote ref.  `remoteResolve` is the
result of `rev-parse origin/<name>` and `localResolve` of `rev-parse <name>`
(`none` when the call throws); `compareResult` is the outcome of the
merge-base / rev-list comparison block (`none` when any of those calls
throws), holding the raw parse results of the two `rev-list --count`
outputs (`none` for an unparsable count, coerced to 0 by the source's
`parseInt(..) || 0`), local first, remote second. -/
structure RefEnv where
  remoteResolve : Option String
  localResolve : Option String
  compareResult : Option (Option Nat × Option Nat)
deriving DecidableEq, Repr

/-- Ref-resolution decision tree of `GitService.getCommits`
(gitService lines 237-310).  The nested try/catch blocks of the source map
onto the `Option` cases: a throwing remote `rev-parse` lands in the outer
catch, which returns the name unchanged whether or not the local ref
resolves; a throwing local `rev-parse` picks the remote ref; identical
commit ids pick the remote ref; differing ids consult the ahead counts,
with the remote ref as the fallback when the comparison throws or neither
side is ahead. -/
def resolveRef (branchOrTag : String) (env : RefEnv) : ResolvedRef :=
  let remoteRef := "origin/" ++ branchOrTag
  match env.remoteResolve with
  | none => { queryRef := branchOrTag, usedRemote := false }
  | some remoteCommit =>
    match env.localResolve with
    | none => { queryRef := remoteRef, usedRemote := true }
    | some localCommit =>
      if localCommit ≠ remoteCommit then
        match env.compareResult with
        | none => { queryRef := remoteRef, usedRemote := true }
        | some (localAhead, remoteAhead) =>
          let localAheadCount := localAhead.getD 0
          let remoteAheadCount := remoteAhead.getD 0
          if remoteAheadCount > 0 then { queryRef := remoteRef, usedRemote := true }
          else if localAheadCount > 0 then { queryRef := branchOrTag, usedRemote := false }
          else { queryRef := remoteRef, usedRemote := true }
      else { queryRef := remoteRef, usedRemote := true }

/-- Environment for the divergence tie-break witness: local and remote ids
differ, the local side is 0 ahead and the remote side 3 ahead. -/
def envTieRemoteAhead : RefEnv :=
  { remoteResolve := some "r", localResolve := some "l"
    compareResult := some (some 0, some 3) }

/-- Environment where local and remote resolve to the identical commit id. -/
def envSameCommit : RefEnv :=
  { remoteResolve := some "c", localResolve := some "c", compareResult := none }

/-- Containment of a pattern at the head of a character list (helper for the
JS `String.prototype.includes` model). -/
def listStartsWith : List Char → List Char → Bool
  | _, [] => true
  | [], _ :: _ => false
  | a :: s, b :: t => a == b && listStartsWith s t

/-- Containment of a pattern anywhere in a character list: the model of JS
`String.prototype.includes` on the underlying characters. -/
def listHasSub : List Char → List Char → Bool
  | [], t => t.isEmpty
  | a :: s, t => listStartsWith (a :: s) t || listHasSub s t

/-- JS `s.includes(pat)` on strings. -/
def strContains (s pat : String) : Bool :=
  listHasSub s.data pat.data

/-- The author test of the pre-filter (webviewProvider lines 285-290):
`commit.author.toLowerCase().includes(authorFilter.toLowerCase())`, with
`toLower` modelling JS `toLowerCase`. -/
def authorMatch (authorFilter : String) (c : GitCommit) : Bool :=
  strContains c.author.toLower authorFilter.toLower

/-- Author pre-filter of `GitLogWebviewProvider.compareBranches`
(webviewProvider lines 281-291): applied only when the filter string is
non-empty (JS truthiness of `authorFilter`). -/
def applyAuthorFilter (authorFilter : String) (commits : List GitCommit) :
    List GitCommit :=
  if authorFilter = "" then commits
  else commits.filter (fun c => authorMatch authorFilter c)

/-- Hide-identical pre-filter (webviewProvider lines 293-304): both message
sets are built before either list is reduced, then each list drops the
commits whose message occurs in the other side's set. -/
def hideIdenticalStep (fromCommits toCommits : List GitCommit) :
    List GitCommit × List GitCommit :=
  let fromMessages := fromCommits.map (fun c => c.message)
  let toMessages := toCommits.map (fun c => c.message)
  (fromCommits.filter (fun c => !toMessages.contains c.message),
   toCommits.filter (fun c => !fromMessages.contains c.message))

/-- Pre-filter pipeline of `GitLogWebviewProvider.compareBranches`
(webviewProvider lines 275-305): the author filter first, then, in
hide-identical mode, the message pre-filter. -/
def compareBranchesFilter (hideIdentical : Bool) (authorFilter : String)
    (fromCommits toCommits : List GitCommit) : List GitCommit × List GitCommit :=
  let f := applyAuthorFilter authorFilter fromCommits
  let t := applyAuthorFilter authorFilter toCommits
  if hideIdentical then hideIdenticalStep f t else (f, t)

/-- The `computeDivergence` entry point of specification §4.2: the caller's
pre-filters of `compareBranches` followed by the divergence computation of
`getBranchDifference` on the reduced lists. -/
def computeDivergence (hideIdentical : Bool) (authorFilter : String)
    (fromCommits toCommits : List GitCommit) : BranchDifference :=
  let ft := compareBranchesFilter hideIdentical authorFilter fromCommits toCommits
  getBranchDifference ft.1 ft.2

/-- Specification-side predicate: the message `m` does not occur among the
messages of `commits`. -/
def messageAbsent (commits : List GitCommit) (m : String) : Prop :=
  ∀ c ∈ commits, c.message ≠ m

instance (commits : List GitCommit) (m : String) : Decidable (messageAbsent commits m) :=
  inferInstanceAs (Decidable (∀ c ∈ commits, c.message ≠ m))

/-- Specification-side predicate of claim C8: `s` contains `pat` as a
case-insensitive substring. -/
def containsCaseInsensitive (pat s : String) : Prop :=
  ∃ l r, s.toLower.data = l ++ pat.toLower.data ++ r

/-- Scenario 3 of the specification, from side. -/
def scenario3From : List GitCommit :=
  [{ hash := "h1", date := "d", message := "x", author := "a" },
   { hash := "h2", date := "d", message := "y", author := "a" }]

/-- Scenario 3 of the specification, to side. -/
def scenario3To : List GitCommit :=
  [{ hash := "h3", date := "d", message := "x", author := "a" },
   { hash := "h4", date := "d", message := "z", author := "a" }]

/-- Concrete lists for the author pre-filter witness. -/
def demoAuthorFrom : List GitCommit :=
  [{ hash := "h1", date := "d", message := "m1", author := "Alice Smith" },
   { hash := "h2", date := "d", message := "m2", author := "Bob" }]

/-- Concrete list for the author pre-filter witness, to side. -/
def demoAuthorTo : List GitCommit :=
  [{ hash := "h3", date := "d", message := "m3", author := "alice jones" }]

/-- Scenario 2 of the specification, from side. -/
def scenario2From : List GitCommit :=
  [{ hash := "h1", date := "d1", message := "fix bug", author := "alice" }]

/-- Scenario 2 of the specification, to side. -/
def scenario2To : List GitCommit :=
  [{ hash := "h1", date := "d2", message := "fix the bug", author := "bob" }]

lemma onlyInFrom_def (A B : List GitCommit) :
    (getBranchDifference A B).onlyInFrom = A.filter (fun c => !hasHash B c.hash) := rfl

lemma onlyInTo_def (A B : List GitCommit) :
    (getBranchDifference A B).onlyInTo = B.filter (fun c => !hasHash A c.hash) := rfl

lemma different_def (A B : List GitCommit) :
    (getBranchDifference A B).different = A.filterMap (fun fromCommit =>
      match mapGet B fromCommit.hash with
      | some toCommit =>
        if fromCommit.message != toCommit.message then
          some { hash := fromCommit.hash
                 fromMessage := fromCommit.message
                 toMessage := toCommit.message
                 author := fromCommit.author
                 date := fromCommit.date }
        else none
      | none => none) := rfl

lemma hasHash_iff (B : List GitCommit) (h : String) :
    hasHash B h = true ↔ ∃ c ∈ B, c.hash = h := by
  simp [hasHash]

lemma not_hasHash_eq (B : List GitCommit) (h : String) :
    (!hasHash B h) = decide (hashAbsent B h) := by
  apply Bool.coe_iff_coe.mp
  simp [hasHash, hashAbsent]

lemma mapGet_eq_some_imp {B : List GitCommit} {h : String} {tc : GitCommit}
    (hm : mapGet B h = some tc) : tc ∈ B ∧ tc.hash = h := by
  have hmem : tc ∈ B.filter (fun c => c.hash == h) :=
    List.mem_of_mem_getLast? (by simpa [Option.mem_def, mapGet] using hm)
  have hsplit := List.mem_filter.mp hmem
  exact ⟨hsplit.1, by simpa using hsplit.2⟩

lemma mapGet_eq_find? {B : List GitCommit}
    (hB : (B.map (fun c => c.hash)).Nodup) (h : String) :
    mapGet B h = B.find? (fun tc => tc.hash == h) := by
  induction B with
  | nil => rfl
  | cons c t ih =>
    have hB2 : (c.hash :: t.map (fun c => c.hash)).Nodup := by simpa using hB
    rcases List.nodup_cons.mp hB2 with ⟨hc, ht⟩
    by_cases hch : c.hash = h
    · have hfil : t.filter (fun x => x.hash == h) = [] := by
        rw [List.filter_eq_nil_iff]
        intro a ha hpa
        exact hc (by
          have : a.hash = h := by simpa using hpa
          rw [← hch] at this
          exact List.mem_map.mpr ⟨a, ha, this⟩)
      have hleft : mapGet (c :: t) h = some c := by
        unfold mapGet
        rw [List.filter_cons]
        simp [hch, hfil]
      rw [hleft, List.find?_cons_of_pos _ (by simpa using hch)]
    · have hleft : mapGet (c :: t) h = mapGet t h := by
        unfold mapGet
        rw [List.filter_cons]
        simp [hch]
      rw [hleft, List.find?_cons_of_neg _ (by simpa using hch)]
      exact ih ht

/-- Claim C1: for every pair of input commit lists, the divergence computation
returns `onlyInFrom` equal to the sublist of `fromCommits` whose hash does not
occur in `toCommits`, and `onlyInTo` equal to the symmetric sublist of
`toCommits`; both are filters of their input list, and the two sublist
conjuncts make the preservation of the input's relative order explicit. -/
theorem c1_only_sets (A B : List GitCommit) :
    (getBranchDifference A B).onlyInFrom = spec_onlyInFrom A B ∧
    (getBranchDifference A B).onlyInTo = spec_onlyInTo A B ∧
    List.Sublist ((getBranchDifference A B).onlyInFrom) A ∧
    List.Sublist ((getBranchDifference A B).onlyInTo) B := by
  refine ⟨?_, ?_, ?_, ?_⟩
  · rw [onlyInFrom_def, spec_onlyInFrom]
    exact List.filter_congr (fun c _ => not_hasHash_eq B c.hash)
  · rw [onlyInTo_def, spec_onlyInTo]
    exact List.filter_congr (fun c _ => not_hasHash_eq A c.hash)
  · rw [onlyInFrom_def]
    exact List.filter_sublist A
  · rw [onlyInTo_def]
    exact List.filter_sublist B

/-- Claim C2: when the to-side hashes are distinct (the data model's identity
invariant), the `different` output of the divergence equals the specification's
`changedMessage`: one record for each from-commit whose hash is present in the
to side and whose message differs byte-for-byte, carrying the shared hash, both
messages verbatim, and the from-side author and date. -/
theorem c2_changed_message (A B : List GitCommit)
    (hB : (B.map (fun c => c.hash)).Nodup) :
    (getBranchDifference A B).different = spec_changedMessage A B := by
  rw [different_def, spec_changedMessage]
  have hfun : ∀ fc : GitCommit,
      (match mapGet B fc.hash with
       | some tc =>
         if fc.message != tc.message then
           some { hash := fc.hash, fromMessage := fc.message, toMessage := tc.message
                  author := fc.author, date := fc.date : DifferentRecord }
         else none
       | none => none) =
      (match B.find? (fun tc => tc.hash == fc.hash) with
       | some tc =>
         if fc.message ≠ tc.message then
           some { hash := fc.hash, fromMessage := fc.message, toMessage := tc.message
                  author := fc.author, date := fc.date : DifferentRecord }
         else none
       | none => none) := by
    intro fc
    rw [mapGet_eq_find? hB]
    cases B.find? (fun tc => tc.hash == fc.hash) with
    | none => rfl
    | some tc =>
      by_cases hm : fc.message = tc.message
      · simp [hm]
      · simp [hm]
  exact List.filterMap_congr (fun fc _ => hfun fc)

/-- Concrete instantiation of claim C2 at the specification's Scenario 2,
discharging the distinct-hash hypothesis. -/
theorem c2_changed_message_witness :
    ((scenario2To.map (fun c => c.hash)).Nodup) ∧
    (getBranchDifference scenario2From scenario2To).different =
      spec_changedMessage scenario2From scenario2To :=
  ⟨by decide, c2_changed_message scenario2From scenario2To (by decide)⟩

/-- Claim C4: each hash belongs to at most one of the classes `onlyInFrom`,
`onlyInTo` and the common set, and every `different` record has a hash in the
common set and unequal messages. -/
theorem c4_partition (A B : List GitCommit) (h : String) :
    (¬ ((∃ c ∈ (getBranchDifference A B).onlyInFrom, c.hash = h) ∧
        (∃ c ∈ (getBranchDifference A B).onlyInTo, c.hash = h))) ∧
    (¬ ((∃ c ∈ (getBranchDifference A B).onlyInFrom, c.hash = h) ∧ hashInCommon A B h)) ∧
    (¬ ((∃ c ∈ (getBranchDifference A B).onlyInTo, c.hash = h) ∧ hashInCommon A B h)) ∧
    (∀ r ∈ (getBranchDifference A B).different,
        hashInCommon A B r.hash ∧ r.fromMessage ≠ r.toMessage) := by
  have hFrom : ∀ c ∈ (getBranchDifference A B).onlyInFrom,
      c ∈ A ∧ ∀ d ∈ B, d.hash ≠ c.hash := by
    intro c hcmem
    rw [onlyInFrom_def] at hcmem
    have hsplit := List.mem_filter.mp hcmem
    refine ⟨hsplit.1, ?_⟩
    intro d hd hdc
    have htrue : hasHash B c.hash = true := (hasHash_iff B c.hash).mpr ⟨d, hd, hdc⟩
    rw [htrue] at hsplit
    simp at hsplit
  have hTo : ∀ c ∈ (getBranchDifference A B).onlyInTo,
      c ∈ B ∧ ∀ d ∈ A, d.hash ≠ c.hash := by
    intro c hcmem
    rw [onlyInTo_def] at hcmem
    have hsplit := List.mem_filter.mp hcmem
    refine ⟨hsplit.1, ?_⟩
    intro d hd hdc
    have htrue : hasHash A c.hash = true := (hasHash_iff A c.hash).mpr ⟨d, hd, hdc⟩
    rw [htrue] at hsplit
    simp at hsplit
  refine ⟨?_, ?_, ?_, ?_⟩
  · rintro ⟨⟨c, hc, hch⟩, ⟨c2, hc2, hc2h⟩⟩
    rcases hFrom c hc with ⟨hcA, hnotB⟩
    rcases hTo c2 hc2 with ⟨hc2B, _⟩
    exact hnotB c2 hc2B (by rw [hc2h, hch])
  · rintro ⟨⟨c, hc, hch⟩, ⟨_, ⟨d, hd, hdh⟩⟩⟩
    rcases hFrom c hc with ⟨_, hnotB⟩
    exact hnotB d hd (by rw [hdh, hch])
  · rintro ⟨⟨c, hc, hch⟩, ⟨⟨d, hd, hdh⟩, _⟩⟩
    rcases hTo c hc with ⟨_, hnotA⟩
    exact hnotA d hd (by rw [hdh, hch])
  · intro r hr
    rw [different_def] at hr
    rcases List.mem_filterMap.mp hr with ⟨fc, hfc, heq⟩
    rcases hm : mapGet B fc.hash with _ | tc
    · rw [hm] at heq
      simp at heq
    · rw [hm] at heq
      rcases mapGet_eq_some_imp hm with ⟨htcB, htch⟩
      have heq2 : (if (fc.message != tc.message) = true then
          some { hash := fc.hash, fromMessage := fc.message, toMessage := tc.message
                 author := fc.author, date := fc.date : DifferentRecord }
          else none) = some r := heq
      by_cases hne : fc.message = tc.message
      · rw [if_neg (by simp [hne])] at heq2
        exact absurd heq2 (by simp)
      · rw [if_pos (by simpa using hne)] at heq2
        have hrec := Option.some.inj heq2
        subst hrec
        exact ⟨⟨⟨fc, hfc, rfl⟩, ⟨tc, htcB, htch⟩⟩, hne⟩

/-- Claim C9: the `onlyInFrom` component of the divergence of the pair
`(A, B)` equals the `onlyInTo` component of the divergence of the swapped pair
`(B, A)` — here even as lists, hence in particular as sets. -/
theorem c9_swap_symmetry (A B : List GitCommit) :
    (getBranchDifference A B).onlyInFrom = (getBranchDifference B A).onlyInTo ∧
    ∀ c, c ∈ (getBranchDifference A B).onlyInFrom ↔
      c ∈ (getBranchDifference B A).onlyInTo := by
  exact ⟨rfl, fun c => Iff.rfl⟩

lemma origin_append_ne (name : String) : "origin/" ++ name ≠ name := by
  intro h
  have hlen := congrArg String.length h
  rw [String.length_append] at hlen
  have h7 : ("origin/" : String).length = 7 := by decide
  rw [h7] at hlen
  omega

lemma resolveRef_cases (name : String) (env : RefEnv) :
    resolveRef name env = { queryRef := name, usedRemote := false } ∨
    resolveRef name env = { queryRef := "origin/" ++ name, usedRemote := true } := by
  rcases hrem : env.remoteResolve with _ | rc
  · left
    simp [resolveRef, hrem]
  · rcases hloc : env.localResolve with _ | lc
    · right
      simp [resolveRef, hrem, hloc]
    · by_cases hne : lc ≠ rc
      · rcases hcmp : env.compareResult with _ | ⟨la, ra⟩
        · right
          simp [resolveRef, hrem, hloc, hne, hcmp]
        · by_cases hra : ra.getD 0 > 0
          · right
            simp [resolveRef, hrem, hloc, hne, hcmp, hra]
          · by_cases hla : la.getD 0 > 0
            · left
              simp [resolveRef, hrem, hloc, hne, hcmp, hra, hla]
            · right
              simp [resolveRef, hrem, hloc, hne, hcmp, hra, hla]
      · right
        simp [resolveRef, hrem, hloc, hne]

/-- Claim C3: when local and remote refs resolve to different commit ids and
the merge-base comparison returns the two ahead counts, the resolver picks the
remote ref whenever the remote side is ahead (regardless of the local count),
else the local ref whenever the local side is ahead, and otherwise (both
counts zero or unparsable) falls back to the remote ref. -/
theorem c3_divergence_tiebreak (name : String) (env : RefEnv)
    (lc rc : String) (la ra : Option Nat)
    (hr : env.remoteResolve = some rc) (hl : env.localResolve = some lc)
    (hne : lc ≠ rc) (hc : env.compareResult = some (la, ra)) :
    resolveRef name env =
      (if ra.getD 0 > 0 then { queryRef := "origin/" ++ name, usedRemote := true }
       else if la.getD 0 > 0 then { queryRef := name, usedRemote := false }
       else { queryRef := "origin/" ++ name, usedRemote := true } : ResolvedRef) := by
  simp [resolveRef, hr, hl, hne, hc]

/-- Concrete instantiation of claim C3: remote 3 ahead, local 0 ahead, the
resolver picks the remote ref. -/
theorem c3_divergence_tiebreak_witness :
    resolveRef "main" envTieRemoteAhead =
      { queryRef := "origin/" ++ "main", usedRemote := true } := by
  rw [c3_divergence_tiebreak "main" envTieRemoteAhead "l" "r" (some 0) (some 3)
    rfl rfl (by decide) rfl]
  decide

/-- Claim C5: every hook failure is absorbed into a fallback decision —
`resolveRef` is a total function (no failure escapes), a failed merge-base
comparison falls back to the remote ref, a failed local resolution falls back
to the remote ref, and when neither the local nor the remote ref resolves the
name is returned unchanged with `usedRemote = false`. -/
theorem c5_fallback_absorption (name : String) (env : RefEnv) :
    (env.remoteResolve = none → env.localResolve = none →
      resolveRef name env = { queryRef := name, usedRemote := false }) ∧
    (∀ rc, env.remoteResolve = some rc → env.localResolve = none →
      resolveRef name env = { queryRef := "origin/" ++ name, usedRemote := true }) ∧
    (∀ rc lc, env.remoteResolve = some rc → env.localResolve = some lc → lc ≠ rc →
      env.compareResult = none →
      resolveRef name env = { queryRef := "origin/" ++ name, usedRemote := true }) := by
  refine ⟨?_, ?_, ?_⟩
  · intro hr _
    simp [resolveRef, hr]
  · intro rc hr hl
    simp [resolveRef, hr, hl]
  · intro rc lc hr hl hne hc
    simp [resolveRef, hr, hl, hne, hc]

/-- Claim C6: when local and remote refs resolve to the identical commit id,
the resolver returns the remote query ref with `usedRemote = true`. -/
theorem c6_identical_prefers_remote (name : String) (env : RefEnv) (c : String)
    (hr : env.remoteResolve = some c) (hl : env.localResolve = some c) :
    resolveRef name env = { queryRef := "origin/" ++ name, usedRemote := true } := by
  simp [resolveRef, hr, hl]

/-- Concrete instantiation of claim C6: both sides resolve to commit id c. -/
theorem c6_identical_prefers_remote_witness :
    resolveRef "main" envSameCommit =
      { queryRef := "origin/" ++ "main", usedRemote := true } :=
  c6_identical_prefers_remote "main" envSameCommit "c" rfl rfl

/-- Claim C10: the resolver produces exactly two query-string shapes and the
`usedRemote` flag tracks them: the query ref is `origin/` prepended to the
input name iff `usedRemote` is true, and the unmodified input name iff
`usedRemote` is false. -/
theorem c10_query_shape (name : String) (env : RefEnv) :
    ((resolveRef name env).usedRemote = true ↔
      (resolveRef name env).queryRef = "origin/" ++ name) ∧
    ((resolveRef name env).usedRemote = false ↔
      (resolveRef name env).queryRef = name) := by
  have hne := origin_append_ne name
  rcases resolveRef_cases name env with h | h <;> rw [h] <;> simp [hne, hne.symm]

lemma listStartsWith_iff (s t : List Char) :
    listStartsWith s t = true ↔ ∃ r, s = t ++ r := by
  induction s generalizing t with
  | nil =>
    cases t with
    | nil => simp [listStartsWith]
    | cons b t2 => simp [listStartsWith]
  | cons a s2 ih =>
    cases t with
    | nil => simp [listStartsWith]
    | cons b t2 =>
      rw [show listStartsWith (a :: s2) (b :: t2) = (a == b && listStartsWith s2 t2)
        from rfl]
      simp [Bool.and_eq_true, ih]

lemma listHasSub_iff (s t : List Char) :
    listHasSub s t = true ↔ ∃ l r, s = l ++ t ++ r := by
  induction s with
  | nil =>
    cases t with
    | nil => simp [listHasSub]
    | cons b t2 => simp [listHasSub]
  | cons a s2 ih =>
    rw [show listHasSub (a :: s2) t = (listStartsWith (a :: s2) t || listHasSub s2 t)
      from rfl]
    rw [Bool.or_eq_true, listStartsWith_iff, ih]
    constructor
    · rintro (⟨r, hr⟩ | ⟨l, r, hlr⟩)
      · exact ⟨[], r, by simpa using hr⟩
      · exact ⟨a :: l, r, by simp [hlr]⟩
    · rintro ⟨l, r, hlr⟩
      cases l with
      | nil =>
        left
        exact ⟨r, by simpa using hlr⟩
      | cons x l2 =>
        right
        have hx : a = x ∧ s2 = l2 ++ t ++ r := by simpa using hlr
        exact ⟨l2, r, hx.2⟩

lemma authorMatch_iff (af : String) (c : GitCommit) :
    authorMatch af c = true ↔ containsCaseInsensitive af c.author := by
  rw [authorMatch, strContains, listHasSub_iff, containsCaseInsensitive]

lemma not_contains_message_eq (B : List GitCommit) (m : String) :
    (!((B.map (fun c => c.message)).contains m)) = decide (messageAbsent B m) := by
  apply Bool.coe_iff_coe.mp
  simp [messageAbsent]

/-- Claim C7: in hide-identical mode the pipeline removes from each input
list, before the divergence computation, every commit whose message occurs in
the other input list, and computes the divergence on the reduced lists; at
the specification's Scenario 3 this leaves onlyInFrom = [h2] and
onlyInTo = [h4]. -/
theorem c7_hide_identical :
    (∀ A B : List GitCommit,
      computeDivergence true "" A B =
        getBranchDifference
          (A.filter (fun c => decide (messageAbsent B c.message)))
          (B.filter (fun c => decide (messageAbsent A c.message)))) ∧
    (computeDivergence true "" scenario3From scenario3To).onlyInFrom =
      [{ hash := "h2", date := "d", message := "y", author := "a" }] ∧
    (computeDivergence true "" scenario3From scenario3To).onlyInTo =
      [{ hash := "h4", date := "d", message := "z", author := "a" }] := by
  refine ⟨?_, ?_, ?_⟩
  · intro A B
    have h0 : computeDivergence true "" A B = getBranchDifference
        (A.filter (fun c => !((B.map (fun c2 => c2.message)).contains c.message)))
        (B.filter (fun c => !((A.map (fun c2 => c2.message)).contains c.message))) := by
      simp [computeDivergence, compareBranchesFilter, applyAuthorFilter,
        hideIdenticalStep]
    rw [h0]
    congr 1
    · exact List.filter_congr (fun c _ => not_contains_message_eq B c.message)
    · exact List.filter_congr (fun c _ => not_contains_message_eq A c.message)
  · decide
  · decide

/-- Claim C8: with a non-empty author filter string, both input lists are
reduced — before the hide-identical pre-filter and before the divergence
computation — to exactly the commits whose author contains the filter string
as a case-insensitive substring; the sublist conjuncts record that each
reduction is a subsequence of its input. -/
theorem c8_author_prefilter (af : String) (hi : Bool) (A B : List GitCommit)
    (haf : af ≠ "") :
    compareBranchesFilter hi af A B =
      compareBranchesFilter hi "" (applyAuthorFilter af A) (applyAuthorFilter af B) ∧
    computeDivergence hi af A B =
      computeDivergence hi "" (applyAuthorFilter af A) (applyAuthorFilter af B) ∧
    (∀ c, c ∈ applyAuthorFilter af A ↔ c ∈ A ∧ containsCaseInsensitive af c.author) ∧
    (∀ c, c ∈ applyAuthorFilter af B ↔ c ∈ B ∧ containsCaseInsensitive af c.author) ∧
    List.Sublist (applyAuthorFilter af A) A ∧
    List.Sublist (applyAuthorFilter af B) B := by
  have hA : applyAuthorFilter af A = A.filter (fun c => authorMatch af c) := by
    rw [applyAuthorFilter, if_neg haf]
  have hB2 : applyAuthorFilter af B = B.filter (fun c => authorMatch af c) := by
    rw [applyAuthorFilter, if_neg haf]
  have hid : ∀ L : List GitCommit, applyAuthorFilter "" L = L := fun L => by
    rw [applyAuthorFilter, if_pos rfl]
  refine ⟨?_, ?_, ?_, ?_, ?_, ?_⟩
  · simp only [compareBranchesFilter, hid]
  · simp only [computeDivergence, compareBranchesFilter, hid]
  · intro c
    rw [hA]
    simp only [List.mem_filter]
    exact and_congr_right (fun _ => authorMatch_iff af c)
  · intro c
    rw [hB2]
    simp only [List.mem_filter]
    exact and_congr_right (fun _ => authorMatch_iff af c)
  · rw [hA]
    exact List.filter_sublist A
  · rw [hB2]
    exact List.filter_sublist B

/-- Concrete instantiation of claim C8 with author filter "alice",
discharging the non-emptiness hypothesis. -/
theorem c8_author_prefilter_witness :
    compareBranchesFilter true "alice" demoAuthorFrom demoAuthorTo =
      compareBranchesFilter true ""
        (applyAuthorFilter "alice" demoAuthorFrom)
        (applyAuthorFilter "alice" demoAuthorTo) :=
  (c8_author_prefilter "alice" true demoAuthorFrom demoAuthorTo (by decide)).1
